import Mathlib

/-!
Verification of the pair-accumulation engine of picca against its
natural-language specification.  Each claim is settled by one theorem over
a shallow embedding of the corresponding source code.  Machine floats are
modelled by `ℚ` (or by `ℝ` where transcendental functions appear); numpy
arrays of equal length are modelled by `List ℚ` or by vectors `Fin n → ℚ`.
-/

namespace Picca

/-! ### Global Reducer: merge and weighted-mean normalization (C1)

Embedding of the merge step of `bin/do_metal_dmat.py` (lines 173-187) and
of `bin/do_wick.py` (lines 152-159). -/

/-- Per-partition accumulator returned by a `do_metal_dmat.py` worker:
distortion-matrix rows `dm` with their weight sums `wdm`, coordinate sums
`rp`, `rt`, `z` with their weight sums `we`, and the two pair counters. -/
structure MetalAcc (nb nm : ℕ) where
  wdm : Fin nb → ℚ
  dm : Fin nb → Fin nm → ℚ
  rp : Fin nb → ℚ
  rt : Fin nb → ℚ
  z : Fin nb → ℚ
  we : Fin nb → ℚ
  npairs : ℚ
  npairs_used : ℚ

/-- Per-partition accumulator returned by a `do_wick.py` worker. -/
structure WickAcc (nb : ℕ) where
  w123 : Fin nb → ℚ
  t123 : Fin nb → Fin nb → ℚ
  npairs : ℚ
  npairs_used : ℚ

/-- Elementwise sum of a list of vectors (`dm[:,k].sum(axis=0)`). -/
def sumF {nb : ℕ} (parts : List (Fin nb → ℚ)) : Fin nb → ℚ :=
  fun i => (parts.map (fun p => p i)).sum

/-- Elementwise sum of a list of matrices. -/
def sumM {nb nm : ℕ} (ms : List (Fin nb → Fin nm → ℚ)) : Fin nb → Fin nm → ℚ :=
  fun i j => (ms.map (fun m => m i j)).sum

/-- Result of the merge step of `do_metal_dmat.py`. -/
structure MetalMerged (nb nm : ℕ) where
  wdm : Fin nb → ℚ
  dm : Fin nb → Fin nm → ℚ
  rp : Fin nb → ℚ
  rt : Fin nb → ℚ
  z : Fin nb → ℚ
  we : Fin nb → ℚ
  npairs : ℚ
  npairs_used : ℚ

/-- Merge step of `do_metal_dmat.py` (lines 173-187): the per-partition
accumulators are summed elementwise; the coordinate sums are then divided
by the weight sum `we` exactly on the bins with `we > 0` (source:
`w = we>0; rp[w] /= we[w]` and likewise for `rt`, `z`), and the
distortion-matrix rows are divided by `wdm` exactly on the bins with
`wdm > 0` (source: `w = wdm>0; dm[w,:] /= wdm[w,None]`). -/
def mergeMetal {nb nm : ℕ} (parts : List (MetalAcc nb nm)) : MetalMerged nb nm :=
  let wdm := sumF (parts.map MetalAcc.wdm)
  let dm0 := sumM (parts.map MetalAcc.dm)
  let rp0 := sumF (parts.map MetalAcc.rp)
  let rt0 := sumF (parts.map MetalAcc.rt)
  let z0 := sumF (parts.map MetalAcc.z)
  let we := sumF (parts.map MetalAcc.we)
  { wdm := wdm
    we := we
    rp := fun i => if 0 < we i then rp0 i / we i else rp0 i
    rt := fun i => if 0 < we i then rt0 i / we i else rt0 i
    z := fun i => if 0 < we i then z0 i / we i else z0 i
    dm := fun i j => if 0 < wdm i then dm0 i j / wdm i else dm0 i j
    npairs := (parts.map MetalAcc.npairs).sum
    npairs_used := (parts.map MetalAcc.npairs_used).sum }

/-- Merge step of `do_wick.py` (lines 152-159): elementwise sums, then
`we = w123*w123[:,None]` and the guarded in-place division
`w = we>0; t123[w] /= we[w]`.  Cell `(i,j)` of the broadcast product is
`w123 j * w123 i`.  (The subsequent uniform rescaling by
`npairs_used/npairs` on line 160 applies to every cell alike and performs
no per-bin weight division.) -/
def mergeWick {nb : ℕ} (parts : List (WickAcc nb)) :
    (Fin nb → ℚ) × (Fin nb → Fin nb → ℚ) :=
  let w123 := sumF (parts.map WickAcc.w123)
  let t0 := sumM (parts.map WickAcc.t123)
  (w123,
    fun i j =>
      if 0 < w123 j * w123 i then t0 i j / (w123 j * w123 i) else t0 i j)

/-! ### Neighbor Index: maximum pairing angle (C2)

Embedding of `do_metal_dmat.py` lines 103, 120-121 and 128
(`do_wick.py` line 136 computes the same quantity through
`utils.compute_ang_max`). -/

/-- Minimum redshift over all loaded samples, as accumulated in
`do_metal_dmat.py`: `z_min_pix = 1.e6` initially (line 103) and
`z_min_pix = sp.amin(sp.append([z_min_pix], z))` for each delta
(line 121).  The per-delta redshift arrays
(`z = 10**d.ll/args.lambda_abs - 1`, line 120) are taken as the input
`zs`. -/
def z_min_pix (zs : List (List ℚ)) : ℚ :=
  zs.flatten.foldl min 1000000

/-- Maximum pairing angle, `do_metal_dmat.py` line 128:
`cf.angmax = 2.*sp.arcsin(cf.rt_max/(2.*cosmo.r_comoving(z_min_pix)))`.
`rcomov` is the external cosmology function `r_comoving`. -/
noncomputable def angmax (rcomov : ℚ → ℝ) (rt_max : ℝ) (zs : List (List ℚ)) : ℝ :=
  2 * Real.arcsin (rt_max / (2 * rcomov (z_min_pix zs)))

/-! ### Spatial Partitioner: resolution search (C3, C4)

Embedding of `picca/io.py find_nside` (lines 472-503) and of the nside
search in `pylya/io.py read_data` (lines 64-87). -/

/-- Mean number of objects per occupied healpix cell, as computed in
`picca/io.py find_nside`: `len(healpixs) / len(np.unique(healpixs))`,
where `healpixs = healpy.ang2pix(nside, ...)` is modelled by the
abstract pixelizer `pix nside` applied to each object.  Python-3 true
division raises `ZeroDivisionError` when there is no occupied cell
(empty object set), modelled as `none`. -/
def meanNumObj (pix : ℕ → ℕ → ℕ) (objs : List ℕ) (nside : ℕ) : Option ℚ :=
  let healpixs := objs.map (pix nside)
  if healpixs.dedup.length = 0 then none
  else some ((healpixs.length : ℚ) / (healpixs.dedup.length : ℚ))

/-- The halving loop of `picca/io.py find_nside`:
`while mean_num_obj < target_mean_num_obj and nside >= nside_min:`
`nside //= 2` and recompute, with `target_mean_num_obj = 500` and
`nside_min = 8`.  The loop halves from 256 and therefore runs at most
seven times; the structural fuel supplied by `findNside` dominates that
bound, and fuel exhaustion (`none`) is proved unreachable for nonempty
inputs. -/
def nsideLoop (pix : ℕ → ℕ → ℕ) (objs : List ℕ) : ℕ → ℕ → Option ℕ
  | 0, _ => none
  | fuel + 1, nside =>
    match meanNumObj pix objs nside with
    | none => none
    | some m =>
      if m < 500 ∧ 8 ≤ nside then nsideLoop pix objs fuel (nside / 2)
      else some nside

/-- `picca/io.py find_nside`: the search starts at `nside = 256`. -/
def findNside (pix : ℕ → ℕ → ℕ) (objs : List ℕ) : Option ℕ :=
  nsideLoop pix objs 256 256

/-- pylya/io.py `read_data`:
`mobj = sp.bincount(pixs).sum()/len(sp.unique(pixs))`.
`sp.bincount(pixs).sum()` equals `len(pixs)`, and the quotient is a
Python-2 integer division on numpy integers; numpy integer division by
zero yields 0 (with a RuntimeWarning) rather than raising, which
coincides with `Nat` division in Lean. -/
def pylyaMobj (pix : ℕ → ℕ → ℕ) (objs : List ℕ) (nside : ℕ) : ℕ :=
  let pixs := objs.map (pix nside)
  pixs.length / pixs.dedup.length

/-- The nside halving loop of `pylya/io.py read_data` (lines 80-84),
identical in structure to the one in `picca/io.py find_nside`. -/
def pylyaNsideLoop (pix : ℕ → ℕ → ℕ) (objs : List ℕ) : ℕ → ℕ → ℕ
  | 0, nside => nside
  | fuel + 1, nside =>
    if pylyaMobj pix objs nside < 500 ∧ 8 ≤ nside then
      pylyaNsideLoop pix objs fuel (nside / 2)
    else nside

/-- pylya/io.py `read_data` nside search, starting at 256. -/
def pylyaNside (pix : ℕ → ℕ → ℕ) (objs : List ℕ) : ℕ :=
  pylyaNsideLoop pix objs 256 256

/-- pylya/io.py `read_data`: the occupied cells `upix = sp.unique(pixs)`
over which the per-cell reading loop runs; partition assignment is a
no-op exactly when this list is empty. -/
def pylyaCells (pix : ℕ → ℕ → ℕ) (objs : List ℕ) (nside : ℕ) : List ℕ :=
  (objs.map (pix nside)).dedup

/-! ### Angular separation (C5, C9)

Embedding of `qso.__xor__` (`picca/data.py` lines 32-71), scalar branch;
the array branch applies the same formulas elementwise. -/

/-- Sky position of an object (`picca/data.py class qso`): right
ascension and declination in radians. -/
structure Qso where
  ra : ℝ
  dec : ℝ

/-- Derived cartesian coordinate, `qso.__init__`:
`self.xcart = sp.cos(ra)*sp.cos(dec)`. -/
noncomputable def xcart (q : Qso) : ℝ := Real.cos q.ra * Real.cos q.dec

/-- Derived cartesian coordinate, `qso.__init__`:
`self.ycart = sp.sin(ra)*sp.cos(dec)`. -/
noncomputable def ycart (q : Qso) : ℝ := Real.sin q.ra * Real.cos q.dec

/-- Derived cartesian coordinate, `qso.__init__`:
`self.zcart = sp.sin(dec)`. -/
noncomputable def zcart (q : Qso) : ℝ := Real.sin q.dec

/-- Derived cosine of the declination, `qso.__init__`. -/
noncomputable def cosdec (q : Qso) : ℝ := Real.cos q.dec

/-- Cartesian dot-product cosine of the pair, `qso.__xor__`:
`cos = x*self.xcart + y*self.ycart + z*self.zcart`. -/
noncomputable def pairCos (self other : Qso) : ℝ :=
  xcart other * xcart self + ycart other * ycart self
    + zcart other * zcart self

/-- Clamping of the cosine together with its warning count,
`qso.__xor__`: `if cos>=1.: cos = 1.` (with a printed warning counting
one occurrence) and `elif cos<=-1.: cos = -1.` likewise. -/
noncomputable def clampCos (c : ℝ) : ℝ × ℕ :=
  if 1 ≤ c then (1, 1) else if c ≤ -1 then (-1, 1) else (c, 0)

/-- Angular separation `qso.__xor__` (scalar branch): `arccos` of the
clamped cosine, overridden by the planar approximation
`sqrt((dec-self.dec)**2 + (self.cosdec*(ra-self.ra))**2)` when both the
right-ascension and the declination differences are below
`constants.small_angle_cut_off` (taken as the parameter `cutoff`). -/
noncomputable def xorAngle (cutoff : ℝ) (self other : Qso) : ℝ :=
  let c := (clampCos (pairCos self other)).1
  let angl := Real.arccos c
  if |other.ra - self.ra| < cutoff ∧ |other.dec - self.dec| < cutoff then
    Real.sqrt ((other.dec - self.dec) ^ 2
      + (cosdec self * (other.ra - self.ra)) ^ 2)
  else angl

/-- Number of clamping warnings `qso.__xor__` reports for one pair. -/
noncomputable def xorWarnings (self other : Qso) : ℕ :=
  (clampCos (pairCos self other)).2

/-! ### Worker seeding (C6)

Embedding of the seeding in `do_wick.py` (`calc_t123`, lines 16-19) and
`do_metal_dmat.py` (line 147). -/

/-- Seed used by a `do_wick.py` worker for its chunk `p` of healpix ids
(`calc_t123`: `sp.random.seed(p[0])`); worker chunks are built nonempty
and `p[0]` is the first element. -/
def wickWorkerSeed (p : List ℕ) : ℕ := p.headD 0

/-- Initial generator seed of a `do_metal_dmat.py` worker: the script
calls `random.seed(0)` once in the parent process (line 147) before any
pool is created, and no worker ever reseeds, so every worker starts from
the state seeded with the constant 0 whatever chunk it processes. -/
def metalWorkerSeed (_p : List ℕ) : ℕ := 0

/-- Random stream a `do_wick.py` worker uses for chunk `p`, for an
abstract generator `gen` mapping a seed to its stream of uniform
draws. -/
def wickChunkStream (gen : ℕ → ℕ → ℚ) (p : List ℕ) : ℕ → ℚ :=
  gen (wickWorkerSeed p)

/-! ### Empty object set fails before the pool (C7)

Embedding of the tail of `picca/io.py read_deltas` (lines 1369-1375) and
the main flow of `do_wick.py` (lines 128-149). -/

/-- Sight-line object as read by `read_deltas`; only the attributes the
emptiness check needs are modelled. -/
structure WickDelta where
  ra : ℚ
  dec : ℚ

/-- Tail of `picca/io.py read_deltas`: healpix numbers are computed for
every loaded delta and `AssertionError` is raised when there are none
(`if healpixs.size == 0: raise AssertionError(...)`); otherwise the
deltas are grouped by healpix number (returned here as the list of
(healpix, delta) pairs; the dictionary grouping order is immaterial to
the claims). -/
def read_deltas (pix : WickDelta → ℕ) (deltas : List WickDelta) :
    Except String (List (ℕ × WickDelta)) :=
  let healpixs := deltas.map pix
  if healpixs.length = 0 then Except.error "ERROR: No data"
  else Except.ok ((deltas.zip healpixs).map (fun x => (x.2, x.1)))

/-- Main flow of `do_wick.py`: the deltas are read first (line 129) and
the worker pool is created and mapped only afterwards (lines 147-148);
`pool` stands for the whole parallel stage. -/
def wickMain (pix : WickDelta → ℕ) (pool : List (ℕ × WickDelta) → List ℚ)
    (deltas : List WickDelta) : Except String (List ℚ) :=
  match read_deltas pix deltas with
  | Except.error e => Except.error e
  | Except.ok data => Except.ok (pool data)

/-! ### Forest coaddition (C8)

Embedding of `forest.__add__` (`picca/data.py` lines 249-310). -/

/-- Sample-array bundle of a `forest` object that owns valid samples; a
forest whose constructor found zero valid samples sets none of these
attributes, modelled as the `none` case of `Option ForestData`.
`reso_matrix` is kept as its list of rows. -/
structure ForestData where
  ll : List ℚ
  fl : List ℚ
  iv : List ℚ
  mmef : Option (List ℚ)
  diff : Option (List ℚ)
  reso : Option (List ℚ)
  reso_matrix : Option (List (List ℚ))
  reso_pix : Option (List ℚ)
  T_dla : Option (List ℚ)

/-- Weighted bincount `sp.bincount(bins, weights=ws)` padded to length
`n` (the code allocates `sp.zeros(bins.max()+1)` and adds the bincount
into its prefix). -/
def bincountW (n : ℕ) (bins : List ℕ) (ws : List ℚ) : List ℚ :=
  (List.range n).map
    (fun k => (((bins.zip ws).filter (fun bw => bw.1 == k)).map Prod.snd).sum)

/-- Boolean-mask selection `xs[w]` for a mask `w` of the same length. -/
def maskFilter {α : Type} (w : List Bool) (xs : List α) : List α :=
  ((xs.zip w).filter (fun p => p.2)).map Prod.fst

/-- Coaddition `forest.__add__` with class-level grid configuration
`lmin`, `dll`.  When either operand has no sample arrays the code
returns `self` unchanged.  Otherwise the arrays are concatenated, the
grid bins are `sp.floor((ll-forest.lmin)/forest.dll+0.5)`, the channels
are coadded with inverse-variance weights by `sp.bincount`, and the
result is cut to the bins with positive coadded `iv`.  Two failure modes
of the source are modelled as `Except.error`: `sp.bincount` raises
`ValueError` on a negative bin, and the 2-D `reso_matrix` branch of the
channel loop executes `sp.zeros(v.shape[0], bins.max() + 1)`, which
passes the column count where numpy expects a dtype and raises
`TypeError` (the constructor spells the same allocation correctly as
`sp.zeros((reso_matrix.shape[0], bins.max() + 1))` on line 171). -/
def forestAdd (lmin dll : ℚ) (self other : Option ForestData) :
    Except String (Option ForestData) :=
  match self, other with
  | none, _ => Except.ok none
  | some s, none => Except.ok (some s)
  | some s, some t =>
    let llcat := s.ll ++ t.ll
    let flcat := s.fl ++ t.fl
    let ivcat := s.iv ++ t.iv
    let binsZ := llcat.map (fun l => Int.floor ((l - lmin) / dll + 1 / 2))
    if binsZ.any (fun b => b < 0) then
      Except.error "ValueError: negative bin"
    else
      let bins := binsZ.map Int.toNat
      let nb := bins.foldr max 0 + 1
      let civ := bincountW nb bins ivcat
      let w := civ.map (fun c => decide (0 < c))
      let cll := (List.range nb).map (fun k => lmin + (k : ℚ) * dll)
      match s.reso_matrix with
      | some _ => Except.error "TypeError: zeros called with the column count as dtype"
      | none =>
        let coadd1 (v : List ℚ) : List ℚ :=
          List.zipWith (fun a b => a / b)
            (maskFilter w
              (bincountW nb bins (List.zipWith (fun a b => a * b) ivcat v)))
            (maskFilter w civ)
        Except.ok (some
          { ll := maskFilter w cll
            fl := coadd1 flcat
            iv := maskFilter w civ
            mmef := s.mmef.map (fun a => coadd1 (a ++ t.mmef.getD []))
            diff := s.diff.map (fun a => coadd1 (a ++ t.diff.getD []))
            reso := s.reso.map (fun a => coadd1 (a ++ t.reso.getD []))
            reso_matrix := none
            reso_pix := s.reso_pix.map (fun a => coadd1 (a ++ t.reso_pix.getD []))
            T_dla := s.T_dla })

/-- A one-pixel forest carrying a one-row resolution matrix; coadding it
with itself reaches the broken 2-D branch of `forest.__add__`. -/
def forestEx : ForestData :=
  { ll := [0], fl := [1], iv := [1], mmef := none, diff := none,
    reso := none, reso_matrix := some [[1]], reso_pix := none,
    T_dla := none }

/-! ### Continuum-mode projection (C10)

Embedding of `delta.project` (`picca/data.py` lines 691-701). -/

/-- Arguments of `delta.project`: the delta values, log-wavelengths and
weights of one sight-line, together with the continuum-fit order. -/
structure DeltaProj (n : ℕ) where
  de : Fin n → ℚ
  ll : Fin n → ℚ
  we : Fin n → ℚ
  order : ℕ

/-- Weighted average `sp.average(xs, weights=we)`. -/
def waverage {n : ℕ} (we xs : Fin n → ℚ) : ℚ :=
  (∑ i, we i * xs i) / (∑ i, we i)

/-- Projection `delta.project`: subtract the weighted mean `mde` and, at
order 1 with more than one sample, the fitted linear log-wavelength mode
`mld*(self.ll-mll)`; at order 1 with a single sample `res = self.de`;
the final update is `self.de -= mde + res`. -/
def project {n : ℕ} (d : DeltaProj n) : Fin n → ℚ :=
  let mde := waverage d.we d.de
  if d.order = 1 ∧ 1 < n then
    let mll := waverage d.we d.ll
    let mld := (∑ i, d.we i * d.de i * (d.ll i - mll))
                 / (∑ i, d.we i * (d.ll i - mll) ^ 2)
    fun i => d.de i - (mde + mld * (d.ll i - mll))
  else if d.order = 1 then fun i => d.de i - (mde + d.de i)
  else fun i => d.de i - mde

/-- Concrete order-1 sight-line with two samples, used as witness
input. -/
def deltaEx : DeltaProj 2 :=
  { de := ![1, 3], ll := ![0, 1], we := ![1, 1], order := 1 }

/-- Concrete order-0 sight-line with one sample, used as witness
input. -/
def deltaEx0 : DeltaProj 1 :=
  { de := ![3], ll := ![0], we := ![2], order := 0 }

/-- Concrete one-partition metal accumulator used as witness input. -/
def metalAccEx : MetalAcc 2 1 :=
  { wdm := ![2, 0], dm := ![![10], ![0]], rp := ![6, 0], rt := ![4, 0],
    z := ![2, 0], we := ![2, 0], npairs := 1, npairs_used := 1 }

/-- Concrete one-partition wick accumulator used as witness input. -/
def wickAccEx : WickAcc 2 :=
  { w123 := ![1, 0], t123 := ![![5, 0], ![0, 0]], npairs := 1,
    npairs_used := 1 }

/-- A list of nonnegative rationals with zero sum is all zeros. -/
theorem list_sum_zero_of_nonneg {l : List ℚ} (h : ∀ x ∈ l, 0 ≤ x)
    (hs : l.sum = 0) : ∀ x ∈ l, x = 0 := by
  induction l with
  | nil => simp
  | cons a t ih =>
    have ha : 0 ≤ a := h a (by simp)
    have ht : ∀ x ∈ t, 0 ≤ x := fun x hx => h x (by simp [hx])
    have hts : 0 ≤ t.sum := List.sum_nonneg ht
    rw [List.sum_cons] at hs
    have ha0 : a = 0 := by linarith
    have hts0 : t.sum = 0 := by linarith
    intro x hx
    rcases List.mem_cons.mp hx with hxa | hxt
    · exact hxa.trans ha0
    · exact ih ht hts0 x hxt

/-- A left fold of `min` is bounded by its initial value. -/
theorem foldl_min_le_init (l : List ℚ) (a : ℚ) : l.foldl min a ≤ a := by
  induction l generalizing a with
  | nil => exact le_refl a
  | cons b t ih => exact le_trans (ih (min a b)) (min_le_left a b)

/-- A left fold of `min` is bounded by every member of the list. -/
theorem foldl_min_le_mem (l : List ℚ) : ∀ a x : ℚ, x ∈ l → l.foldl min a ≤ x := by
  induction l with
  | nil => intro a x hx; cases hx
  | cons b t ih =>
    intro a x hx
    rcases List.mem_cons.mp hx with rfl | hxt
    · exact le_trans (foldl_min_le_init t (min a x)) (min_le_right a x)
    · exact ih (min a b) x hxt

/-- A left fold of `min` returns its initial value or a member. -/
theorem foldl_min_mem_or (l : List ℚ) :
    ∀ a : ℚ, l.foldl min a = a ∨ l.foldl min a ∈ l := by
  induction l with
  | nil => intro a; exact Or.inl rfl
  | cons b t ih =>
    intro a
    rcases ih (min a b) with h | h
    · rcases min_choice a b with hab | hab
      · left
        show t.foldl min (min a b) = a
        rw [h, hab]
      · right
        show t.foldl min (min a b) ∈ b :: t
        rw [h, hab]
        exact List.mem_cons_self b t
    · exact Or.inr (List.mem_cons_of_mem b h)

/-- C2.  The maximum pairing angle is
`2*arcsin(max_transverse/(2*r_comov(z_min)))` where `z_min` is the
minimum redshift over all loaded samples, and - `r_comov` being
monotone - `r_comov(z_min)` is the minimum comoving distance among all
loaded samples.  (All physical redshifts lie far below the `1.e6`
sentinel the accumulation starts from.) -/
theorem C2_neighbor_index_max_angle (rcomov : ℚ → ℝ) (rt_max : ℝ)
    (zs : List (List ℚ)) (hne : zs.flatten ≠ [])
    (hb : ∀ z ∈ zs.flatten, z ≤ 1000000) (hm : Monotone rcomov) :
    z_min_pix zs ∈ zs.flatten
    ∧ (∀ z ∈ zs.flatten, z_min_pix zs ≤ z)
    ∧ angmax rcomov rt_max zs
        = 2 * Real.arcsin (rt_max / (2 * rcomov (z_min_pix zs)))
    ∧ rcomov (z_min_pix zs) ∈ zs.flatten.map rcomov
    ∧ (∀ r ∈ zs.flatten.map rcomov, rcomov (z_min_pix zs) ≤ r) := by
  have hle : ∀ z ∈ zs.flatten, z_min_pix zs ≤ z :=
    fun z hz => foldl_min_le_mem zs.flatten 1000000 z hz
  have hmem : z_min_pix zs ∈ zs.flatten := by
    rcases foldl_min_mem_or zs.flatten 1000000 with h | h
    · rcases List.exists_mem_of_ne_nil zs.flatten hne with ⟨z0, hz0⟩
      have hfe : z_min_pix zs = 1000000 := h
      have h1 : z_min_pix zs ≤ z0 := hle z0 hz0
      have h2 : z0 ≤ z_min_pix zs := by rw [hfe]; exact hb z0 hz0
      have : z_min_pix zs = z0 := le_antisymm h1 h2
      rw [this]
      exact hz0
    · exact h
  refine ⟨hmem, hle, rfl, List.mem_map.mpr ⟨_, hmem, rfl⟩, ?_⟩
  intro r hr
  rcases List.mem_map.mp hr with ⟨z, hz, rfl⟩
  exact hm (hle z hz)

/-- C2 witness: two samples at redshifts 2 and 3, the identity-like
cosmology `q ↦ (q : ℝ)` and `rt_max = 1`. -/
theorem C2_neighbor_index_max_angle_witness :
    z_min_pix [[(2 : ℚ), 3]] = 2
    ∧ angmax (fun q : ℚ => (q : ℝ)) 1 [[(2 : ℚ), 3]]
        = 2 * Real.arcsin (1 / (2 * ((2 : ℚ) : ℝ))) := by
  have h := C2_neighbor_index_max_angle (fun q : ℚ => (q : ℝ)) 1
    [[(2 : ℚ), 3]] (by decide) (by decide) Rat.cast_mono
  have hz : z_min_pix [[(2 : ℚ), 3]] = 2 := by decide
  refine ⟨hz, ?_⟩
  rw [h.2.2.1, hz]

/-- For a nonempty object set the mean objects-per-cell is defined. -/
theorem meanNumObj_isSome (pix : ℕ → ℕ → ℕ) (objs : List ℕ)
    (hne : objs ≠ []) (nside : ℕ) :
    ∃ m, meanNumObj pix objs nside = some m := by
  have h1 : objs.map (pix nside) ≠ [] :=
    fun h => hne (List.map_eq_nil_iff.mp h)
  have h2 : (objs.map (pix nside)).dedup ≠ [] :=
    fun h => h1 ((List.dedup_eq_nil _).mp h)
  have h3 : ¬ (objs.map (pix nside)).dedup.length = 0 :=
    fun h => h2 (List.length_eq_zero.mp h)
  simp only [meanNumObj]
  rw [if_neg h3]
  exact ⟨_, rfl⟩

/-- One unfolding of the `find_nside` halving loop. -/
theorem nsideLoop_succ (pix : ℕ → ℕ → ℕ) (objs : List ℕ) (fuel nside : ℕ) :
    nsideLoop pix objs (fuel + 1) nside
      = match meanNumObj pix objs nside with
        | none => none
        | some m =>
          if m < 500 ∧ 8 ≤ nside then nsideLoop pix objs fuel (nside / 2)
          else some nside := rfl

/-- A loop iteration halves `nside` while the average is below target and
`nside >= 8`. -/
theorem nsideLoop_step (pix : ℕ → ℕ → ℕ) (objs : List ℕ) (fuel nside : ℕ)
    (m : ℚ) (hm : meanNumObj pix objs nside = some m) (h1 : m < 500)
    (h2 : 8 ≤ nside) :
    nsideLoop pix objs (fuel + 1) nside = nsideLoop pix objs fuel (nside / 2) := by
  simp only [nsideLoop_succ, hm]
  rw [if_pos ⟨h1, h2⟩]

/-- The loop returns the current `nside` when the continuation condition
fails. -/
theorem nsideLoop_stop (pix : ℕ → ℕ → ℕ) (objs : List ℕ) (fuel nside : ℕ)
    (m : ℚ) (hm : meanNumObj pix objs nside = some m)
    (h : ¬ (m < 500 ∧ 8 ≤ nside)) :
    nsideLoop pix objs (fuel + 1) nside = some nside := by
  simp only [nsideLoop_succ, hm]
  rw [if_neg h]

/-- One unfolding of the pylya halving loop. -/
theorem pylyaLoop_succ (pix : ℕ → ℕ → ℕ) (objs : List ℕ) (fuel nside : ℕ) :
    pylyaNsideLoop pix objs (fuel + 1) nside
      = if pylyaMobj pix objs nside < 500 ∧ 8 ≤ nside then
          pylyaNsideLoop pix objs fuel (nside / 2)
        else nside := rfl

/-- A pylya loop iteration halves `nside` while the average is below
target and `nside >= 8`. -/
theorem pylyaLoop_step (pix : ℕ → ℕ → ℕ) (objs : List ℕ) (fuel nside : ℕ)
    (h : pylyaMobj pix objs nside < 500 ∧ 8 ≤ nside) :
    pylyaNsideLoop pix objs (fuel + 1) nside
      = pylyaNsideLoop pix objs fuel (nside / 2) := by
  rw [pylyaLoop_succ, if_pos h]

/-- The pylya loop returns the current `nside` when the continuation
condition fails. -/
theorem pylyaLoop_stop (pix : ℕ → ℕ → ℕ) (objs : List ℕ) (fuel nside : ℕ)
    (h : ¬ (pylyaMobj pix objs nside < 500 ∧ 8 ≤ nside)) :
    pylyaNsideLoop pix objs (fuel + 1) nside = nside := by
  rw [pylyaLoop_succ, if_neg h]

/-- Invariant of the `find_nside` halving loop: on a nonempty object set
the loop terminates without error at a resolution between 4 and the
starting value, and at the returned resolution either the average meets
the target or the resolution has dropped below the minimum 8. -/
theorem nsideLoop_spec (pix : ℕ → ℕ → ℕ) (objs : List ℕ) (hne : objs ≠ []) :
    ∀ fuel nside : ℕ, 4 ≤ nside → nside < 2 ^ fuel →
      ∃ n, nsideLoop pix objs fuel nside = some n ∧ 4 ≤ n ∧ n ≤ nside ∧
        ∃ m, meanNumObj pix objs n = some m ∧ (500 ≤ m ∨ n < 8) := by
  intro fuel
  induction fuel with
  | zero =>
    intro nside h4 hlt
    rw [pow_zero] at hlt
    omega
  | succ f ih =>
    intro nside h4 hlt
    obtain ⟨m, hm⟩ := meanNumObj_isSome pix objs hne nside
    by_cases hc : m < 500 ∧ 8 ≤ nside
    · have h4' : 4 ≤ nside / 2 := by omega
      have hlt' : nside / 2 < 2 ^ f := by
        rw [pow_succ] at hlt
        omega
      obtain ⟨n, hn, hn4, hnle, hrest⟩ := ih (nside / 2) h4' hlt'
      refine ⟨n, ?_, hn4, le_trans hnle (Nat.div_le_self nside 2), hrest⟩
      rw [nsideLoop_step pix objs f nside m hm hc.1 hc.2]
      exact hn
    · exact ⟨nside, nsideLoop_stop pix objs f nside m hm hc, h4,
        le_refl nside, m, hm, by
          rcases not_and_or.mp hc with h | h
          · exact Or.inl (not_lt.mp h)
          · exact Or.inr (not_le.mp h)⟩

/-- On the two-object set with every object in its own cell the mean per
occupied cell is the constant 2/2 at every resolution. -/
theorem meanNumObj_two (ns : ℕ) :
    meanNumObj (fun _ x => x) [0, 1] ns
      = some (((2 : ℕ) : ℚ) / ((2 : ℕ) : ℚ)) := rfl

/-- The constant mean 2/2 lies below the target 500. -/
theorem meanNumObj_two_lt : (((2 : ℕ) : ℚ) / ((2 : ℕ) : ℚ)) < 500 := by
  norm_num

/-- C3 counterexample: with every object in its own cell the average per
occupied cell is 1, so the loop condition `nside >= nside_min` lets the
search halve once more at `nside = 8` and return 4, strictly below the
stated minimum resolution 8. -/
theorem C3_counterexample :
    findNside (fun _ x => x) [0, 1] = some 4 ∧ 4 < 8 := by
  refine ⟨?_, by norm_num⟩
  show nsideLoop (fun _ x => x) [0, 1] 256 256 = some 4
  calc nsideLoop (fun _ x => x) [0, 1] (255 + 1) 256
      = nsideLoop (fun _ x => x) [0, 1] 255 (256 / 2) :=
        nsideLoop_step _ _ 255 256 _ (meanNumObj_two 256) meanNumObj_two_lt
          (by norm_num)
    _ = nsideLoop (fun _ x => x) [0, 1] 254 (128 / 2) :=
        nsideLoop_step _ _ 254 128 _ (meanNumObj_two 128) meanNumObj_two_lt
          (by norm_num)
    _ = nsideLoop (fun _ x => x) [0, 1] 253 (64 / 2) :=
        nsideLoop_step _ _ 253 64 _ (meanNumObj_two 64) meanNumObj_two_lt
          (by norm_num)
    _ = nsideLoop (fun _ x => x) [0, 1] 252 (32 / 2) :=
        nsideLoop_step _ _ 252 32 _ (meanNumObj_two 32) meanNumObj_two_lt
          (by norm_num)
    _ = nsideLoop (fun _ x => x) [0, 1] 251 (16 / 2) :=
        nsideLoop_step _ _ 251 16 _ (meanNumObj_two 16) meanNumObj_two_lt
          (by norm_num)
    _ = nsideLoop (fun _ x => x) [0, 1] 250 (8 / 2) :=
        nsideLoop_step _ _ 250 8 _ (meanNumObj_two 8) meanNumObj_two_lt
          (by norm_num)
    _ = some 4 := nsideLoop_stop _ _ 249 4 _ (meanNumObj_two 4)
          (fun h => by omega)

/-- C3 (amended).  The search starts at 256 and halves while the average
per occupied cell is below 500 and `nside >= 8`; on a nonempty object
set it terminates without error at a resolution `n` with `4 ≤ n ≤ 256`,
and at `n` either the average meets the target or `n` has dropped below
the minimum 8 (so the result can be 4, one halving below the stated
minimum, and is never below 4). -/
theorem C3_resolution_search (pix : ℕ → ℕ → ℕ) (objs : List ℕ)
    (hne : objs ≠ []) :
    findNside pix objs ≠ none
    ∧ ∀ n, findNside pix objs = some n →
        4 ≤ n ∧ n ≤ 256
        ∧ ∀ m, meanNumObj pix objs n = some m → (500 ≤ m ∨ n < 8) := by
  obtain ⟨n, hn, h4, hle, m, hm, hor⟩ :=
    nsideLoop_spec pix objs hne 256 256 (by norm_num) (Nat.lt_two_pow 256)
  constructor
  · show nsideLoop pix objs 256 256 ≠ none
    rw [hn]
    exact Option.some_ne_none n
  · intro n' hn'
    have hn'' : nsideLoop pix objs 256 256 = some n' := hn'
    rw [hn] at hn''
    injection hn'' with he
    subst he
    refine ⟨h4, hle, ?_⟩
    intro m' hm'
    rw [hm] at hm'
    injection hm' with he'
    subst he'
    exact hor

/-- C3 witness: a concrete nonempty input for the amended search
contract. -/
theorem C3_resolution_search_witness :
    findNside (fun _ x => x) [0, 2] ≠ none :=
  (C3_resolution_search (fun _ x => x) [0, 2] (by decide)).1

/-- C4 counterexample: on the empty object set `picca/io.py find_nside`
divides `len(healpixs)` by `len(np.unique(healpixs)) = 0` and raises
`ZeroDivisionError` (modelled `none`), so the resolution-selection step
does not terminate without error on every input. -/
theorem C4_counterexample : findNside (fun _ x => x) [] = none := by
  have hmean : meanNumObj (fun _ x => x) [] 256 = none := by simp [meanNumObj]
  show nsideLoop (fun _ x => x) [] (255 + 1) 256 = none
  rw [nsideLoop_succ, hmean]

/-- C4 (amended).  On every nonempty object set the resolution selection
terminates without error.  On the empty object set `picca`'s
`find_nside` raises `ZeroDivisionError` (modelled `none`), while
`pylya`'s search terminates without error - numpy integer division by
zero yields 0, so the average reads 0 and the loop halves all the way to
4 rather than keeping the initial resolution - and partitioning assigns
nothing. -/
theorem C4_empty_object_set (pix : ℕ → ℕ → ℕ) (objs : List ℕ)
    (hne : objs ≠ []) :
    findNside pix objs ≠ none
    ∧ findNside pix [] = none
    ∧ pylyaNside pix [] = 4
    ∧ ∀ nside, pylyaCells pix [] nside = [] := by
  obtain ⟨n, hn, _, _, _⟩ :=
    nsideLoop_spec pix objs hne 256 256 (by norm_num) (Nat.lt_two_pow 256)
  have hmean : meanNumObj pix [] 256 = none := by simp [meanNumObj]
  have hmobj : ∀ ns, pylyaMobj pix [] ns = 0 := fun ns => by simp [pylyaMobj]
  have hcond : ∀ ns, 8 ≤ ns → pylyaMobj pix [] ns < 500 ∧ 8 ≤ ns :=
    fun ns h8 => ⟨by rw [hmobj ns]; norm_num, h8⟩
  refine ⟨?_, ?_, ?_, fun _ => rfl⟩
  · show nsideLoop pix objs 256 256 ≠ none
    rw [hn]
    exact Option.some_ne_none n
  · show nsideLoop pix [] (255 + 1) 256 = none
    rw [nsideLoop_succ, hmean]
  · show pylyaNsideLoop pix [] 256 256 = 4
    calc pylyaNsideLoop pix [] (255 + 1) 256
        = pylyaNsideLoop pix [] 255 (256 / 2) :=
          pylyaLoop_step _ _ 255 256 (hcond 256 (by norm_num))
      _ = pylyaNsideLoop pix [] 254 (128 / 2) :=
          pylyaLoop_step _ _ 254 128 (hcond 128 (by norm_num))
      _ = pylyaNsideLoop pix [] 253 (64 / 2) :=
          pylyaLoop_step _ _ 253 64 (hcond 64 (by norm_num))
      _ = pylyaNsideLoop pix [] 252 (32 / 2) :=
          pylyaLoop_step _ _ 252 32 (hcond 32 (by norm_num))
      _ = pylyaNsideLoop pix [] 251 (16 / 2) :=
          pylyaLoop_step _ _ 251 16 (hcond 16 (by norm_num))
      _ = pylyaNsideLoop pix [] 250 (8 / 2) :=
          pylyaLoop_step _ _ 250 8 (hcond 8 (by norm_num))
      _ = 4 := pylyaLoop_stop _ _ 249 4 (fun h => by omega)

/-- C4 witness: a singleton object set and the empty set. -/
theorem C4_empty_object_set_witness :
    findNside (fun _ x => x) [7] ≠ none
    ∧ findNside (fun _ x => x) [] = none
    ∧ pylyaNside (fun _ x => x) [] = 4
    ∧ pylyaCells (fun _ x => x) [] 8 = [] := by
  have h := C4_empty_object_set (fun _ x => x) [7] (by decide)
  exact ⟨h.1, h.2.1, h.2.2.1, h.2.2.2 8⟩

/-- C1.  In the merge step of `do_metal_dmat.py` and `do_wick.py`, every
bin whose summed weight is strictly positive has its summed coordinate
sums (and distortion-matrix row, resp. covariance cell) divided by that
weight sum, while every bin whose summed weight is zero is left at its
raw summed value, which is zero (given that each worker returns
nonnegative weight sums and zero weighted sums wherever its weight sum is
zero); no division is ever performed with a zero divisor. -/
theorem C1_global_reducer_normalization {nb nm : ℕ}
    (parts : List (MetalAcc nb nm)) (wparts : List (WickAcc nb))
    (hwe : ∀ a ∈ parts, ∀ i, 0 ≤ a.we i)
    (hwdm : ∀ a ∈ parts, ∀ i, 0 ≤ a.wdm i)
    (hzc : ∀ a ∈ parts, ∀ i, a.we i = 0 → a.rp i = 0 ∧ a.rt i = 0 ∧ a.z i = 0)
    (hzd : ∀ a ∈ parts, ∀ i j, a.wdm i = 0 → a.dm i j = 0)
    (hww : ∀ a ∈ wparts, ∀ i, 0 ≤ a.w123 i)
    (hwt : ∀ a ∈ wparts, ∀ i j, a.w123 i = 0 ∨ a.w123 j = 0 → a.t123 i j = 0) :
    ∀ i : Fin nb,
      (0 < sumF (parts.map MetalAcc.we) i →
        (mergeMetal parts).rp i
            = sumF (parts.map MetalAcc.rp) i / sumF (parts.map MetalAcc.we) i
          ∧ (mergeMetal parts).rt i
            = sumF (parts.map MetalAcc.rt) i / sumF (parts.map MetalAcc.we) i
          ∧ (mergeMetal parts).z i
            = sumF (parts.map MetalAcc.z) i / sumF (parts.map MetalAcc.we) i)
      ∧ (sumF (parts.map MetalAcc.we) i = 0 →
          (mergeMetal parts).rp i = sumF (parts.map MetalAcc.rp) i
          ∧ (mergeMetal parts).rt i = sumF (parts.map MetalAcc.rt) i
          ∧ (mergeMetal parts).z i = sumF (parts.map MetalAcc.z) i
          ∧ (mergeMetal parts).rp i = 0 ∧ (mergeMetal parts).rt i = 0
          ∧ (mergeMetal parts).z i = 0)
      ∧ (∀ j : Fin nm,
          (0 < sumF (parts.map MetalAcc.wdm) i →
            (mergeMetal parts).dm i j
              = sumM (parts.map MetalAcc.dm) i j
                  / sumF (parts.map MetalAcc.wdm) i)
          ∧ (sumF (parts.map MetalAcc.wdm) i = 0 →
              (mergeMetal parts).dm i j = sumM (parts.map MetalAcc.dm) i j
              ∧ (mergeMetal parts).dm i j = 0))
      ∧ (∀ j : Fin nb,
          (0 < sumF (wparts.map WickAcc.w123) j
                 * sumF (wparts.map WickAcc.w123) i →
            (mergeWick wparts).2 i j
              = sumM (wparts.map WickAcc.t123) i j
                  / (sumF (wparts.map WickAcc.w123) j
                      * sumF (wparts.map WickAcc.w123) i))
          ∧ (sumF (wparts.map WickAcc.w123) j
               * sumF (wparts.map WickAcc.w123) i = 0 →
              (mergeWick wparts).2 i j = sumM (wparts.map WickAcc.t123) i j
              ∧ (mergeWick wparts).2 i j = 0)) := by
  intro i
  have hwe_nn : ∀ x ∈ (parts.map (fun a => MetalAcc.we a i)), 0 ≤ x := by
    intro x hx
    rcases List.mem_map.mp hx with ⟨a, ha, rfl⟩
    exact hwe a ha i
  have hwdm_nn : ∀ x ∈ (parts.map (fun a => MetalAcc.wdm a i)), 0 ≤ x := by
    intro x hx
    rcases List.mem_map.mp hx with ⟨a, ha, rfl⟩
    exact hwdm a ha i
  refine ⟨?_, ?_, ?_, ?_⟩
  · intro hpos
    simp only [mergeMetal, sumF, sumM, List.map_map]
    simp only [sumF, List.map_map] at hpos
    rw [if_pos hpos, if_pos hpos, if_pos hpos]
    exact ⟨rfl, rfl, rfl⟩
  · intro hzero
    have hwe0 : ∀ a ∈ parts, a.we i = 0 := by
      intro a ha
      have := list_sum_zero_of_nonneg hwe_nn
        (by simpa [sumF, List.map_map, Function.comp] using hzero)
      exact this (a.we i) (List.mem_map.mpr ⟨a, ha, rfl⟩)
    have hrp0 : sumF (parts.map MetalAcc.rp) i = 0 := by
      simp only [sumF, List.map_map]
      refine List.sum_eq_zero ?_
      intro x hx
      rcases List.mem_map.mp hx with ⟨a, ha, rfl⟩
      exact (hzc a ha i (hwe0 a ha)).1
    have hrt0 : sumF (parts.map MetalAcc.rt) i = 0 := by
      simp only [sumF, List.map_map]
      refine List.sum_eq_zero ?_
      intro x hx
      rcases List.mem_map.mp hx with ⟨a, ha, rfl⟩
      exact (hzc a ha i (hwe0 a ha)).2.1
    have hz0 : sumF (parts.map MetalAcc.z) i = 0 := by
      simp only [sumF, List.map_map]
      refine List.sum_eq_zero ?_
      intro x hx
      rcases List.mem_map.mp hx with ⟨a, ha, rfl⟩
      exact (hzc a ha i (hwe0 a ha)).2.2
    have hnot : ¬ (0 < sumF (parts.map MetalAcc.we) i) := by
      rw [hzero]; exact lt_irrefl 0
    have hraw : (mergeMetal parts).rp i = sumF (parts.map MetalAcc.rp) i
        ∧ (mergeMetal parts).rt i = sumF (parts.map MetalAcc.rt) i
        ∧ (mergeMetal parts).z i = sumF (parts.map MetalAcc.z) i := by
      simp only [mergeMetal, sumF, List.map_map]
      simp only [sumF, List.map_map] at hnot
      rw [if_neg hnot, if_neg hnot, if_neg hnot]
      exact ⟨rfl, rfl, rfl⟩
    exact ⟨hraw.1, hraw.2.1, hraw.2.2, hraw.1.trans hrp0, hraw.2.1.trans hrt0,
      hraw.2.2.trans hz0⟩
  · intro j
    constructor
    · intro hpos
      simp only [mergeMetal, sumF, sumM, List.map_map]
      simp only [sumF, List.map_map] at hpos
      rw [if_pos hpos]
    · intro hzero
      have hwdm0 : ∀ a ∈ parts, a.wdm i = 0 := by
        intro a ha
        have := list_sum_zero_of_nonneg hwdm_nn
          (by simpa [sumF, List.map_map, Function.comp] using hzero)
        exact this (a.wdm i) (List.mem_map.mpr ⟨a, ha, rfl⟩)
      have hdm0 : sumM (parts.map MetalAcc.dm) i j = 0 := by
        simp only [sumM, List.map_map]
        refine List.sum_eq_zero ?_
        intro x hx
        rcases List.mem_map.mp hx with ⟨a, ha, rfl⟩
        exact hzd a ha i j (hwdm0 a ha)
      have hnot : ¬ (0 < sumF (parts.map MetalAcc.wdm) i) := by
        rw [hzero]; exact lt_irrefl 0
      have hraw : (mergeMetal parts).dm i j = sumM (parts.map MetalAcc.dm) i j := by
        simp only [mergeMetal, sumF, sumM, List.map_map]
        simp only [sumF, List.map_map] at hnot
        rw [if_neg hnot]
      exact ⟨hraw, hraw.trans hdm0⟩
  · intro j
    constructor
    · intro hpos
      simp only [mergeWick, sumF, sumM, List.map_map]
      simp only [sumF, List.map_map] at hpos
      rw [if_pos hpos]
    · intro hzero
      have hnot : ¬ (0 < sumF (wparts.map WickAcc.w123) j
          * sumF (wparts.map WickAcc.w123) i) := by
        rw [hzero]; exact lt_irrefl 0
      have hraw : (mergeWick wparts).2 i j = sumM (wparts.map WickAcc.t123) i j := by
        simp only [mergeWick, sumF, sumM, List.map_map]
        simp only [sumF, List.map_map] at hnot
        rw [if_neg hnot]
      refine ⟨hraw, hraw.trans ?_⟩
      rcases mul_eq_zero.mp hzero with hz | hz
      · have hwj : ∀ a ∈ wparts, a.w123 j = 0 := by
          intro a ha
          have hnn : ∀ x ∈ (wparts.map (fun a => WickAcc.w123 a j)), 0 ≤ x := by
            intro x hx
            rcases List.mem_map.mp hx with ⟨b, hb, rfl⟩
            exact hww b hb j
          have := list_sum_zero_of_nonneg hnn
            (by simpa [sumF, List.map_map, Function.comp] using hz)
          exact this (a.w123 j) (List.mem_map.mpr ⟨a, ha, rfl⟩)
        simp only [sumM, List.map_map]
        refine List.sum_eq_zero ?_
        intro x hx
        rcases List.mem_map.mp hx with ⟨a, ha, rfl⟩
        exact hwt a ha i j (Or.inr (hwj a ha))
      · have hwi : ∀ a ∈ wparts, a.w123 i = 0 := by
          intro a ha
          have hnn : ∀ x ∈ (wparts.map (fun a => WickAcc.w123 a i)), 0 ≤ x := by
            intro x hx
            rcases List.mem_map.mp hx with ⟨b, hb, rfl⟩
            exact hww b hb i
          have := list_sum_zero_of_nonneg hnn
            (by simpa [sumF, List.map_map, Function.comp] using hz)
          exact this (a.w123 i) (List.mem_map.mpr ⟨a, ha, rfl⟩)
        simp only [sumM, List.map_map]
        refine List.sum_eq_zero ?_
        intro x hx
        rcases List.mem_map.mp hx with ⟨a, ha, rfl⟩
        exact hwt a ha i j (Or.inl (hwi a ha))

/-- C1 witness: one partition, two bins; bin 0 carries weight, bin 1 is
empty. -/
theorem C1_global_reducer_normalization_witness :
    (mergeMetal [metalAccEx]).rp 0 = 3
    ∧ (mergeMetal [metalAccEx]).rp 1 = 0
    ∧ (mergeMetal [metalAccEx]).dm 0 0 = 5
    ∧ (mergeWick [wickAccEx]).2 0 0 = 5
    ∧ (mergeWick [wickAccEx]).2 1 1 = 0 := by
  have h0 := C1_global_reducer_normalization [metalAccEx] [wickAccEx]
    (by decide) (by decide) (by decide) (by decide) (by decide) (by decide) 0
  have h1 := C1_global_reducer_normalization [metalAccEx] [wickAccEx]
    (by decide) (by decide) (by decide) (by decide) (by decide) (by decide) 1
  refine ⟨?_, ?_, ?_, ?_, ?_⟩
  · exact ((h0.1 (by norm_num [sumF, metalAccEx])).1).trans
      (by norm_num [sumF, metalAccEx])
  · exact (h1.2.1 (by norm_num [sumF, metalAccEx])).2.2.2.1
  · exact (((h0.2.2.1) 0).1 (by norm_num [sumF, metalAccEx])).trans
      (by norm_num [sumF, sumM, metalAccEx])
  · exact (((h0.2.2.2) 0).1 (by norm_num [sumF, wickAccEx])).trans
      (by norm_num [sumF, sumM, wickAccEx])
  · exact ((((h1.2.2.2) 1).2 (by norm_num [sumF, wickAccEx]))).2

/-- C5.  The angular-separation operation clamps the dot-product cosine
into `[-1, 1]` before `arccos`, counts each clamping occurrence, takes
the planar approximation exactly when both coordinate differences are
below the small-angle cutoff, and always returns a well-defined
nonnegative real (never NaN). -/
theorem C5_angular_separation_safe (cutoff : ℝ) (self other : Qso) :
    (clampCos (pairCos self other)).1 ∈ Set.Icc (-1 : ℝ) 1
    ∧ ((|other.ra - self.ra| < cutoff ∧ |other.dec - self.dec| < cutoff) →
        xorAngle cutoff self other
          = Real.sqrt ((other.dec - self.dec) ^ 2
              + (cosdec self * (other.ra - self.ra)) ^ 2))
    ∧ (¬ (|other.ra - self.ra| < cutoff ∧ |other.dec - self.dec| < cutoff) →
        xorAngle cutoff self other
          = Real.arccos (clampCos (pairCos self other)).1)
    ∧ 0 ≤ xorAngle cutoff self other
    ∧ xorWarnings self other
        = if 1 ≤ pairCos self other ∨ pairCos self other ≤ -1 then 1
          else 0 := by
  have hicc : (clampCos (pairCos self other)).1 ∈ Set.Icc (-1 : ℝ) 1 := by
    unfold clampCos
    split_ifs with h1 h2
    · exact ⟨by norm_num, le_refl 1⟩
    · exact ⟨le_refl (-1), by norm_num⟩
    · exact ⟨(not_le.mp h2).le, (not_le.mp h1).le⟩
  have hthen : (|other.ra - self.ra| < cutoff
        ∧ |other.dec - self.dec| < cutoff) →
      xorAngle cutoff self other
        = Real.sqrt ((other.dec - self.dec) ^ 2
            + (cosdec self * (other.ra - self.ra)) ^ 2) := by
    intro h
    simp only [xorAngle]
    rw [if_pos h]
  have helse : ¬ (|other.ra - self.ra| < cutoff
        ∧ |other.dec - self.dec| < cutoff) →
      xorAngle cutoff self other
        = Real.arccos (clampCos (pairCos self other)).1 := by
    intro h
    simp only [xorAngle]
    rw [if_neg h]
  have hnn : 0 ≤ xorAngle cutoff self other := by
    by_cases h : |other.ra - self.ra| < cutoff
        ∧ |other.dec - self.dec| < cutoff
    · rw [hthen h]
      exact Real.sqrt_nonneg _
    · rw [helse h]
      exact Real.arccos_nonneg _
  refine ⟨hicc, hthen, helse, hnn, ?_⟩
  unfold xorWarnings clampCos
  by_cases h1 : 1 ≤ pairCos self other
  · rw [if_pos h1, if_pos (Or.inl h1)]
  · by_cases h2 : pairCos self other ≤ -1
    · rw [if_neg h1, if_pos h2, if_pos (Or.inr h2)]
    · rw [if_neg h1, if_neg h2, if_neg (fun h => h.elim h1 h2)]

/-- C5 witness: coincident positions with cutoff 1 (the small-angle
branch applies and the planar value is 0). -/
theorem C5_angular_separation_safe_witness :
    (clampCos (pairCos (Qso.mk 0 0) (Qso.mk 0 0))).1 ∈ Set.Icc (-1 : ℝ) 1
    ∧ ((|(0 : ℝ) - 0| < 1 ∧ |(0 : ℝ) - 0| < 1) →
        xorAngle 1 (Qso.mk 0 0) (Qso.mk 0 0)
          = Real.sqrt (((0 : ℝ) - 0) ^ 2
              + (cosdec (Qso.mk 0 0) * ((0 : ℝ) - 0)) ^ 2))
    ∧ (¬ ((|(0 : ℝ) - 0| < 1 ∧ |(0 : ℝ) - 0| < 1)) →
        xorAngle 1 (Qso.mk 0 0) (Qso.mk 0 0)
          = Real.arccos (clampCos (pairCos (Qso.mk 0 0) (Qso.mk 0 0))).1)
    ∧ 0 ≤ xorAngle 1 (Qso.mk 0 0) (Qso.mk 0 0)
    ∧ xorWarnings (Qso.mk 0 0) (Qso.mk 0 0)
        = if 1 ≤ pairCos (Qso.mk 0 0) (Qso.mk 0 0)
              ∨ pairCos (Qso.mk 0 0) (Qso.mk 0 0) ≤ -1 then 1
          else 0 :=
  C5_angular_separation_safe 1 (Qso.mk 0 0) (Qso.mk 0 0)

/-- C9 counterexample: the planar small-angle value uses only the
reference object's `cos(dec)`, so for two objects at declinations 0 and
1/200 (both differences below a cutoff of 1/100) the two orders give
`sqrt((1/200)^2 + (cos 0 * 1/200)^2)` versus
`sqrt((1/200)^2 + (cos(1/200) * 1/200)^2)`, which differ because
`cos(1/200) < 1`. -/
theorem C9_counterexample :
    xorAngle (1/100) (Qso.mk 0 0) (Qso.mk (1/200) (1/200))
      ≠ xorAngle (1/100) (Qso.mk (1/200) (1/200)) (Qso.mk 0 0) := by
  have h200 : |(1/200 : ℝ) - 0| < 1/100 := by
    rw [sub_zero, abs_of_pos (by norm_num : (0:ℝ) < 1/200)]
    norm_num
  have h200' : |(0 : ℝ) - 1/200| < 1/100 := by
    rw [zero_sub, abs_neg, abs_of_pos (by norm_num : (0:ℝ) < 1/200)]
    norm_num
  have e1 : xorAngle (1/100) (Qso.mk 0 0) (Qso.mk (1/200) (1/200))
      = Real.sqrt (((1/200 : ℝ) - 0) ^ 2
          + (Real.cos 0 * ((1/200 : ℝ) - 0)) ^ 2) := by
    show (if |(1/200 : ℝ) - 0| < 1/100 ∧ |(1/200 : ℝ) - 0| < 1/100 then
        Real.sqrt (((1/200 : ℝ) - 0) ^ 2
          + (Real.cos 0 * ((1/200 : ℝ) - 0)) ^ 2)
      else Real.arccos
        (clampCos (pairCos (Qso.mk 0 0) (Qso.mk (1/200) (1/200)))).1) = _
    rw [if_pos ⟨h200, h200⟩]
  have e2 : xorAngle (1/100) (Qso.mk (1/200) (1/200)) (Qso.mk 0 0)
      = Real.sqrt (((0 : ℝ) - 1/200) ^ 2
          + (Real.cos (1/200) * ((0 : ℝ) - 1/200)) ^ 2) := by
    show (if |(0 : ℝ) - 1/200| < 1/100 ∧ |(0 : ℝ) - 1/200| < 1/100 then
        Real.sqrt (((0 : ℝ) - 1/200) ^ 2
          + (Real.cos (1/200) * ((0 : ℝ) - 1/200)) ^ 2)
      else Real.arccos
        (clampCos (pairCos (Qso.mk (1/200) (1/200)) (Qso.mk 0 0))).1) = _
    rw [if_pos ⟨h200', h200'⟩]
  have hc1 : Real.cos (1/200) < 1 := by
    have hgt : -(2 * Real.pi) < (1/200 : ℝ) := by
      nlinarith [Real.pi_gt_three]
    have hlt2pi : (1/200 : ℝ) < 2 * Real.pi := by
      nlinarith [Real.pi_gt_three]
    have hiff := Real.cos_eq_one_iff_of_lt_of_lt hgt hlt2pi
    have hne : Real.cos (1/200) ≠ 1 := fun h => by
      have : (1/200 : ℝ) = 0 := hiff.mp h
      norm_num at this
    exact lt_of_le_of_ne (Real.cos_le_one _) hne
  have hc0 : 0 ≤ Real.cos (1/200) := by
    apply Real.cos_nonneg_of_mem_Icc
    constructor
    · nlinarith [Real.pi_gt_three]
    · nlinarith [Real.pi_gt_three]
  have hsq : Real.cos (1/200) ^ 2 < 1 := by nlinarith
  have hlt : Real.sqrt (((0 : ℝ) - 1/200) ^ 2
        + (Real.cos (1/200) * ((0 : ℝ) - 1/200)) ^ 2)
      < Real.sqrt (((1/200 : ℝ) - 0) ^ 2
        + (Real.cos 0 * ((1/200 : ℝ) - 0)) ^ 2) := by
    apply Real.sqrt_lt_sqrt
    · positivity
    · rw [Real.cos_zero]
      nlinarith [hsq]
  rw [e1, e2]
  exact ne_of_gt hlt

/-- C9 (amended).  The angular-separation operation is symmetric
whenever the small-angle branch is not taken (the dot-product cosine and
the clamping are symmetric), and in the small-angle branch it is
symmetric when the two declinations coincide; in general the planar
approximation breaks exact symmetry because it uses only the reference
object's `cos(dec)`. -/
theorem C9_xor_symmetry (cutoff : ℝ) (a b : Qso)
    (h : a.dec = b.dec
      ∨ ¬ (|b.ra - a.ra| < cutoff ∧ |b.dec - a.dec| < cutoff)) :
    xorAngle cutoff a b = xorAngle cutoff b a := by
  have hcos : pairCos a b = pairCos b a := by
    unfold pairCos xcart ycart zcart
    ring
  have hcond : (|b.ra - a.ra| < cutoff ∧ |b.dec - a.dec| < cutoff)
      ↔ (|a.ra - b.ra| < cutoff ∧ |a.dec - b.dec| < cutoff) := by
    rw [abs_sub_comm b.ra a.ra, abs_sub_comm b.dec a.dec]
  simp only [xorAngle]
  by_cases hc : |b.ra - a.ra| < cutoff ∧ |b.dec - a.dec| < cutoff
  · rw [if_pos hc, if_pos (hcond.mp hc)]
    rcases h with hdec | hno
    · simp only [cosdec]
      rw [hdec]
      exact congrArg Real.sqrt (by ring)
    · exact absurd hc hno
  · rw [if_neg hc, if_neg (fun hx => hc (hcond.mpr hx)), hcos]

/-- C9 witness: equal declinations inside the small-angle branch. -/
theorem C9_xor_symmetry_witness :
    xorAngle 1 (Qso.mk 0 (1/2)) (Qso.mk (1/4) (1/2))
      = xorAngle 1 (Qso.mk (1/4) (1/2)) (Qso.mk 0 (1/2)) :=
  C9_xor_symmetry 1 (Qso.mk 0 (1/2)) (Qso.mk (1/4) (1/2)) (Or.inl rfl)

/-- C6 counterexample: in `do_metal_dmat.py` the generator is seeded
with the constant 0 in the parent before the pools fork and no worker
reseeds, so two distinct worker chunks start from the same seed state -
the seed is not derived from the partition identity - while
`do_wick.py` gives them distinct seeds. -/
theorem C6_counterexample :
    metalWorkerSeed [5] = metalWorkerSeed [9]
    ∧ ([5] : List ℕ) ≠ [9]
    ∧ wickWorkerSeed [5] ≠ wickWorkerSeed [9] :=
  ⟨rfl, by decide, by decide⟩

/-- C6 (amended).  A `do_wick.py` worker reseeds from its chunk's first
healpix id at the start of each task, so its random stream is a function
of the chunk alone; a `do_metal_dmat.py` worker never reseeds and starts
from the parent state seeded with the constant 0, identical for every
chunk (deterministic, but independent of partition identity). -/
theorem C6_worker_seeding (gen : ℕ → ℕ → ℚ) (p q : List ℕ) :
    wickChunkStream gen p = gen (p.headD 0)
    ∧ metalWorkerSeed p = metalWorkerSeed q :=
  ⟨rfl, rfl⟩

/-- C7.  When loading produces zero objects, `read_deltas` raises before
returning (`AssertionError`, modelled as `Except.error`), the error is
raised exactly on the empty delta list, and the `do_wick.py` main flow
propagates it before the worker pool stage runs - the result does not
depend on the pool function, so no partial output is produced. -/
theorem C7_empty_fails_before_pool (pix : WickDelta → ℕ)
    (pool pool' : List (ℕ × WickDelta) → List ℚ) :
    wickMain pix pool [] = Except.error "ERROR: No data"
    ∧ wickMain pix pool [] = wickMain pix pool' []
    ∧ ∀ deltas, (read_deltas pix deltas
        = Except.error "ERROR: No data" ↔ deltas = []) := by
  have hnil : read_deltas pix [] = Except.error "ERROR: No data" := by
    simp [read_deltas]
  refine ⟨?_, ?_, ?_⟩
  · show (match read_deltas pix [] with
      | Except.error e => Except.error e
      | Except.ok data => Except.ok (pool data)) = _
    rw [hnil]
  · show (match read_deltas pix [] with
      | Except.error e => Except.error e
      | Except.ok data => Except.ok (pool data))
      = (match read_deltas pix [] with
      | Except.error e => Except.error e
      | Except.ok data => Except.ok (pool' data))
    rw [hnil]
  · intro deltas
    cases deltas with
    | nil => simp [read_deltas]
    | cons d ds =>
      constructor
      · intro hcontra
        simp [read_deltas] at hcontra
      · intro hcontra
        cases hcontra

/-- C7 witness: the empty delta list with a concrete pixelizer and pool
stage. -/
theorem C7_empty_fails_before_pool_witness :
    wickMain (fun _ => 0) (fun _ => []) [] = Except.error "ERROR: No data"
    ∧ (read_deltas (fun _ => 0) [] = Except.error "ERROR: No data"
        ↔ ([] : List WickDelta) = []) := by
  have h := C7_empty_fails_before_pool (fun _ => 0) (fun _ => []) (fun _ => [])
  exact ⟨h.1, h.2.2 []⟩

/-- C8 (code bug).  Coadding two forests that both carry a resolution
matrix reaches the 2-D branch of `forest.__add__`, whose allocation
`sp.zeros(v.shape[0], bins.max() + 1)` passes the column count where
numpy expects a dtype and raises `TypeError` (and its accumulation also
reads the undefined variable `ccnew`); the operation therefore fails
instead of preserving the equal-length invariant, while the constructor
performs the same allocation correctly with a shape tuple. -/
theorem C8_forest_add_reso_matrix_bug :
    forestAdd 0 1 (some forestEx) (some forestEx)
      = Except.error "TypeError: zeros called with the column count as dtype" := by
  have h12 : ((0 : ℚ) - 0) / 1 + 1 / 2 = 1 / 2 := by norm_num
  have hfl : ⌊(1 / 2 : ℚ)⌋ = 0 := by
    rw [Int.floor_eq_zero_iff]
    constructor <;> norm_num
  simp [forestAdd, forestEx, h12, hfl]
  rw [Int.floor_nonneg]
  norm_num

/-- Weighted sums against the centred coordinate vanish:
`∑ we (f - waverage we f) = 0` when the total weight is nonzero. -/
theorem wsum_center_eq_zero {n : ℕ} (we f : Fin n → ℚ)
    (hWne : (∑ i, we i) ≠ 0) :
    (∑ i, we i * (f i - waverage we f)) = 0 := by
  have hsplit : (∑ i, we i * (f i - waverage we f))
      = (∑ i, we i * f i) - (∑ i, we i) * waverage we f := by
    rw [Finset.sum_mul]
    rw [← Finset.sum_sub_distrib]
    exact Finset.sum_congr rfl (fun i _ => by ring)
  rw [hsplit, waverage, mul_comm, div_mul_cancel₀ _ hWne, sub_self]

/-- C10.  With positive weights, `delta.project` leaves the weighted
average of the projected deltas exactly zero when `order = 0`, and when
`order = 1` with more than one sample it also leaves the weighted first
moment against the centred log-wavelength exactly zero (exact rational
arithmetic). -/
theorem C10_project_zero_mean {n : ℕ} (d : DeltaProj n) (hn : 0 < n)
    (hw : ∀ i, 0 < d.we i) :
    (d.order = 0 → waverage d.we (project d) = 0)
    ∧ (d.order = 1 → 1 < n →
        waverage d.we (project d) = 0
        ∧ (∑ i, d.we i * project d i
            * (d.ll i - waverage d.we d.ll)) = 0) := by
  have hne : (Finset.univ : Finset (Fin n)).Nonempty :=
    ⟨⟨0, hn⟩, Finset.mem_univ _⟩
  have hW : 0 < (∑ i, d.we i) :=
    Finset.sum_pos (fun i _ => hw i) hne
  have hWne : (∑ i, d.we i) ≠ 0 := ne_of_gt hW
  constructor
  · intro h0
    have hproj : project d = fun i => d.de i - waverage d.we d.de := by
      unfold project
      rw [if_neg (by simp [h0]), if_neg (by simp [h0])]
    rw [hproj, waverage]
    have : (∑ i, d.we i * (d.de i - waverage d.we d.de)) = 0 :=
      wsum_center_eq_zero d.we d.de hWne
    rw [this, zero_div]
  · intro h1 hn1
    have hproj : project d = fun i => d.de i
        - (waverage d.we d.de
            + ((∑ i, d.we i * d.de i * (d.ll i - waverage d.we d.ll))
                / (∑ i, d.we i * (d.ll i - waverage d.we d.ll) ^ 2))
              * (d.ll i - waverage d.we d.ll)) := by
      unfold project
      rw [if_pos ⟨h1, hn1⟩]
    set mll := waverage d.we d.ll with hmll
    set mde := waverage d.we d.de with hmde
    set M := ∑ i, d.we i * d.de i * (d.ll i - mll) with hM
    set S := ∑ i, d.we i * (d.ll i - mll) ^ 2 with hS
    have hcll : (∑ i, d.we i * (d.ll i - mll)) = 0 :=
      wsum_center_eq_zero d.we d.ll hWne
    have hcde : (∑ i, d.we i * (d.de i - mde)) = 0 :=
      wsum_center_eq_zero d.we d.de hWne
    have hp : ∀ i, project d i
        = d.de i - (mde + M / S * (d.ll i - mll)) :=
      fun i => congrFun hproj i
    have hMS : M - M / S * S = 0 := by
      by_cases hS0 : S = 0
      · have hsum0 : (∑ i, d.we i * (d.ll i - mll) ^ 2) = 0 := by
          rw [← hS]
          exact hS0
        have hnn : ∀ i ∈ (Finset.univ : Finset (Fin n)),
            0 ≤ d.we i * (d.ll i - mll) ^ 2 :=
          fun i _ => mul_nonneg (hw i).le (sq_nonneg _)
        have hall : ∀ i, d.ll i - mll = 0 := by
          intro i
          have hterm := (Finset.sum_eq_zero_iff_of_nonneg hnn).mp hsum0 i
            (Finset.mem_univ i)
          rcases mul_eq_zero.mp hterm with hwe0 | hsq0
          · exact absurd hwe0 (ne_of_gt (hw i))
          · exact (pow_eq_zero_iff two_ne_zero).mp hsq0
        have hM0 : M = 0 := by
          rw [hM]
          exact Finset.sum_eq_zero (fun i _ => by rw [hall i, mul_zero])
        rw [hM0, hS0]
        norm_num
      · rw [div_mul_cancel₀ _ hS0, sub_self]
    have hsum1 : (∑ i, d.we i * project d i) = 0 := by
      have hexp : ∀ i ∈ Finset.univ, d.we i * project d i
          = d.we i * (d.de i - mde)
            - M / S * (d.we i * (d.ll i - mll)) :=
        fun i _ => by rw [hp i]; ring
      rw [Finset.sum_congr rfl hexp, Finset.sum_sub_distrib, hcde,
        ← Finset.mul_sum, hcll, mul_zero, sub_zero]
    constructor
    · rw [waverage, hsum1, zero_div]
    · have hexp2 : ∀ i ∈ Finset.univ,
          d.we i * project d i * (d.ll i - mll)
            = d.we i * d.de i * (d.ll i - mll)
              - mde * (d.we i * (d.ll i - mll))
              - M / S * (d.we i * (d.ll i - mll) ^ 2) :=
        fun i _ => by rw [hp i]; ring
      have hB : (∑ i, mde * (d.we i * (d.ll i - mll))) = 0 := by
        rw [← Finset.mul_sum, hcll, mul_zero]
      have hC : (∑ i, M / S * (d.we i * (d.ll i - mll) ^ 2))
          = M / S * S := by
        rw [← Finset.mul_sum, ← hS]
      calc (∑ i, d.we i * project d i * (d.ll i - mll))
          = (∑ i, d.we i * d.de i * (d.ll i - mll))
            - (∑ i, mde * (d.we i * (d.ll i - mll)))
            - (∑ i, M / S * (d.we i * (d.ll i - mll) ^ 2)) := by
            rw [Finset.sum_congr rfl hexp2, Finset.sum_sub_distrib,
              Finset.sum_sub_distrib]
        _ = M - 0 - M / S * S := by rw [← hM, hB, hC]
        _ = 0 := by rw [sub_zero]; exact hMS

/-- C10 witness: an order-1 sight-line with two samples and an order-0
sight-line with one sample, both with positive weights. -/
theorem C10_project_zero_mean_witness :
    waverage deltaEx.we (project deltaEx) = 0
    ∧ (∑ i, deltaEx.we i * project deltaEx i
        * (deltaEx.ll i - waverage deltaEx.we deltaEx.ll)) = 0
    ∧ waverage deltaEx0.we (project deltaEx0) = 0 := by
  have h1 := (C10_project_zero_mean deltaEx (by norm_num)
    (fun i => by fin_cases i <;> norm_num [deltaEx])).2 rfl (by norm_num)
  have h0 := (C10_project_zero_mean deltaEx0 (by norm_num)
    (fun i => by fin_cases i; norm_num [deltaEx0])).1 rfl
  exact ⟨h1.1, h1.2, h0⟩
